import Mathlib

/-!
Verification of the expensify-os core against its specification.

The Python source is shallowly embedded: timestamps and exact decimal
amounts become rationals, the rate limiter deque becomes a list (oldest
first), fallible paths become `Option`/`Except`, and the orchestration
code becomes pure functions over explicit inputs.
-/

namespace ExpensifyOS

/-! ## List helpers -/

/-- Minimum of a list of rationals (0 on the empty list, which the callers
never hit). -/
def listMin : List ℚ → ℚ
  | [] => 0
  | [x] => x
  | x :: y :: xs => min x (listMin (y :: xs))

/-- Maximum of a list of rationals (0 on the empty list, which the callers
never hit). -/
def listMax : List ℚ → ℚ
  | [] => 0
  | [x] => x
  | x :: y :: xs => max x (listMax (y :: xs))

theorem listMin_mem : ∀ (l : List ℚ), l ≠ [] → listMin l ∈ l
  | [x], _ => by simp [listMin]
  | x :: y :: xs, _ => by
    rcases le_total x (listMin (y :: xs)) with h | h
    · simp [listMin, min_eq_left h]
    · have := listMin_mem (y :: xs) (by simp)
      simp only [listMin, min_eq_right h]
      exact List.mem_cons_of_mem x this

theorem listMin_le : ∀ (l : List ℚ), ∀ x ∈ l, listMin l ≤ x
  | [x], y, hy => by
    simp only [List.mem_singleton] at hy
    simp [listMin, hy]
  | x :: y :: xs, z, hz => by
    simp only [listMin]
    rcases List.mem_cons.mp hz with rfl | hz
    · exact min_le_left _ _
    · exact le_trans (min_le_right _ _) (listMin_le (y :: xs) z hz)

theorem listMax_mem : ∀ (l : List ℚ), l ≠ [] → listMax l ∈ l
  | [x], _ => by simp [listMax]
  | x :: y :: xs, _ => by
    rcases le_total x (listMax (y :: xs)) with h | h
    · have := listMax_mem (y :: xs) (by simp)
      simp only [listMax, max_eq_right h]
      exact List.mem_cons_of_mem x this
    · simp [listMax, max_eq_left h]

theorem le_listMax : ∀ (l : List ℚ), ∀ x ∈ l, x ≤ listMax l
  | [x], y, hy => by
    simp only [List.mem_singleton] at hy
    simp [listMax, hy]
  | x :: y :: xs, z, hz => by
    simp only [listMax]
    rcases List.mem_cons.mp hz with rfl | hz
    · exact le_max_left _ _
    · exact le_trans (le_listMax (y :: xs) z hz) (le_max_right _ _)

/-- On a list sorted in nondecreasing order, dropping the strict prefix of
elements below a cutoff is the same as filtering by the cutoff. -/
theorem sorted_dropWhile_lt_eq_filter (c : ℚ) :
    ∀ (l : List ℚ), l.Sorted (· ≤ ·) →
      l.dropWhile (fun t => decide (t < c)) = l.filter (fun t => decide (c ≤ t))
  | [], _ => rfl
  | x :: xs, h => by
    have hx : ∀ y ∈ xs, x ≤ y := (List.sorted_cons.mp h).1
    have hxs : xs.Sorted (· ≤ ·) := (List.sorted_cons.mp h).2
    by_cases hc : x < c
    · rw [List.dropWhile_cons_of_pos (by simpa using hc),
        List.filter_cons_of_neg (by simpa using not_le.mpr hc)]
      exact sorted_dropWhile_lt_eq_filter c xs hxs
    · rw [List.dropWhile_cons_of_neg (by simpa using hc),
        List.filter_cons_of_pos (by simpa using not_lt.mp hc)]
      congr 1
      have : ∀ y ∈ xs, (fun t => decide (c ≤ t)) y = true := by
        intro y hy
        simpa using le_trans (not_lt.mp hc) (hx y hy)
      exact (List.filter_eq_self.mpr this).symm

/-- `find?` returns the head of the filtered list. -/
theorem find?_eq_head?_filter (p : ℚ → Bool) :
    ∀ (l : List ℚ), l.find? p = (l.filter p).head?
  | [] => rfl
  | x :: xs => by
    by_cases hp : p x
    · rw [List.find?_cons_of_pos _ hp, List.filter_cons_of_pos hp]
      rfl
    · rw [List.find?_cons_of_neg _ (by simpa using hp),
        List.filter_cons_of_neg (by simpa using hp)]
      exact find?_eq_head?_filter p xs

/-- On a sorted nonempty list the head is the minimum. -/
theorem sorted_head?_eq_listMin :
    ∀ (l : List ℚ), l.Sorted (· ≤ ·) → l ≠ [] → l.head? = some (listMin l)
  | [x], _, _ => by simp [listMin]
  | x :: y :: xs, h, _ => by
    have hx : ∀ z ∈ y :: xs, x ≤ z := (List.sorted_cons.mp h).1
    have : x ≤ listMin (y :: xs) :=
      hx _ (listMin_mem (y :: xs) (by simp))
    simp [listMin, min_eq_left this]

/-! ## Sliding-window rate limiter

From `src/expensify_os/expensify/rate_limiter.py`.  Timestamps are
rationals; the deque (oldest first) is a list.  `time.monotonic()` is a
nondecreasing clock, so traces carry a monotonicity side condition. -/

structure RateLimiter where
  short_limit : ℕ
  short_window : ℚ
  long_limit : ℕ
  long_window : ℚ

/-- `RateLimiter._prune`: drop timestamps older than the longest window. -/
def prune (rl : RateLimiter) (now : ℚ) (ts : List ℚ) : List ℚ :=
  ts.dropWhile (fun t => decide (t < now - rl.long_window))

/-- `RateLimiter._wait_time`: how long to wait before the next request is
allowed, together with the pruned timestamp list (the Python method
mutates the deque by pruning).  The `none` match arms model the
`StopIteration`/`IndexError` paths, which are unreachable for positive
limits. -/
def wait_time (rl : RateLimiter) (ts : List ℚ) (now : ℚ) : ℚ × List ℚ :=
  let pruned := prune rl now ts
  let shortCutoff := now - rl.short_window
  let shortCount := (pruned.filter (fun t => decide (shortCutoff ≤ t))).length
  let w1 : ℚ :=
    if rl.short_limit ≤ shortCount then
      (pruned.find? (fun t => decide (shortCutoff ≤ t))).elim 0
        (fun oldest => max 0 (oldest + rl.short_window - now))
    else 0
  let w2 : ℚ :=
    if rl.long_limit ≤ pruned.length then
      pruned.head?.elim w1 (fun h => max w1 (h + rl.long_window - now))
    else w1
  (w2, pruned)

/-- One iteration of the loop in `RateLimiter.acquire` at clock value
`now`: if the computed wait is nonpositive the timestamp is appended and
the call is admitted (`some` of the new deque), otherwise the caller
sleeps (`none`; the deque keeps only the pruning). -/
def acquireAttempt (rl : RateLimiter) (ts : List ℚ) (now : ℚ) : Option (List ℚ) :=
  let r := wait_time rl ts now
  if r.1 ≤ 0 then some (r.2 ++ [now]) else none

/-- Traces of completed `acquire()` calls: `AdmissibleTrace rl admitted state`
says the calls admitted at the (monotonically nondecreasing) clock values
`admitted`, in order, are exactly those the limiter admits, and `state` is
the deque afterwards.  Failed loop iterations only prune, which commutes
with later pruning, so they need not be recorded. -/
inductive AdmissibleTrace (rl : RateLimiter) : List ℚ → List ℚ → Prop where
  | nil : AdmissibleTrace rl [] []
  | step {admitted state : List ℚ} {now : ℚ} {state' : List ℚ} :
      AdmissibleTrace rl admitted state →
      (∀ t ∈ admitted, t ≤ now) →
      acquireAttempt rl state now = some state' →
      AdmissibleTrace rl (admitted ++ [now]) state'

/-- Number of admitted timestamps in the trailing half-open window
`(T - W, T]`. -/
def cntW (admitted : List ℚ) (T W : ℚ) : ℕ :=
  (admitted.filter (fun t => decide (T - W < t) && decide (t ≤ T))).length

/-- The wait computation exactly as the specification words it: prune to the
long window, then take the maximum of the two per-window waits, each
measured from the oldest timestamp inside its window. -/
def waitTimeSpec (rl : RateLimiter) (ts : List ℚ) (now : ℚ) : ℚ :=
  let remaining := ts.filter (fun t => decide (now - rl.long_window ≤ t))
  let shortTs := remaining.filter (fun t => decide (now - rl.short_window ≤ t))
  max
    (if rl.short_limit ≤ shortTs.length then
      listMin shortTs + rl.short_window - now else 0)
    (if rl.long_limit ≤ remaining.length then
      listMin remaining + rl.long_window - now else 0)

/-! ## Decimal strings and the paginated cost aggregators

From `src/expensify_os/plugins/anthropic.py` and
`src/expensify_os/plugins/openai.py`.  Python `Decimal` values are
rationals; a failed `Decimal(...)` parse (an exception) is `none`. -/

/-- Parse a run of decimal digits into a natural number (`some 0` on the
empty run; callers guard emptiness). -/
def parseNatDigits (cs : List Char) : Option ℕ :=
  cs.foldl
    (fun acc c =>
      match acc with
      | none => none
      | some n => if c.isDigit then some (n * 10 + (c.toNat - 48)) else none)
    (some 0)

/-- Parse a plain decimal string (optional sign, integer part, optional
fractional part) into an exact rational, as `Decimal(s)` does on the
amount strings of the cost-report API; `none` models the parse exception. -/
def parseDecimal (s : String) : Option ℚ :=
  let cs := s.data
  let signRest : ℚ × List Char :=
    match cs with
    | '-' :: r => (-1, r)
    | '+' :: r => (1, r)
    | r => (1, r)
  let sign := signRest.1
  let rest := signRest.2
  let intPart := rest.takeWhile (fun c => c ≠ '.')
  match rest.dropWhile (fun c => c ≠ '.') with
  | [] =>
    if intPart.isEmpty then none
    else (parseNatDigits intPart).map (fun n => sign * n)
  | _ :: frac =>
    if frac.any (fun c => c = '.') then none
    else if intPart.isEmpty && frac.isEmpty then none
    else
      match parseNatDigits intPart, parseNatDigits frac with
      | some i, some f => some (sign * ((i : ℚ) + (f : ℚ) / (10 : ℚ) ^ frac.length))
      | _, _ => none

/-- Sequence a list of optional rationals: `none` as soon as one entry is
`none` (an exception aborts the whole accumulation). -/
def seqOption : List (Option ℚ) → Option (List ℚ)
  | [] => some []
  | none :: _ => none
  | some v :: xs => (seqOption xs).map (fun vs => v :: vs)

/-- Exact sum of a list of optional rationals. -/
def sumOption (l : List (Option ℚ)) : Option ℚ :=
  (seqOption l).map List.sum

/-- One entry of `bucket["results"]` for Anthropic: the `amount` field is a
decimal string in cents; an absent field defaults to `"0"`. -/
structure CostResult where
  amount : Option String

/-- One entry of `data` for Anthropic (`results` absent defaults to `[]`). -/
structure CostBucket where
  results : List CostResult

/-- One page of the Anthropic cost report. -/
structure CostPage where
  data : List CostBucket
  has_more : Bool
  next_page : Option String

/-- `Decimal(result.get("amount", "0"))`. -/
def resultAmount (r : CostResult) : Option ℚ :=
  parseDecimal (r.amount.getD "0")

/-- All result amounts of one Anthropic page, in order. -/
def pageAmountsA (p : CostPage) : List (Option ℚ) :=
  (p.data.map (fun b => b.results.map resultAmount)).flatten

/-- The running total after consuming pages as the `while True` loop does:
accumulate the page, stop when `has_more` is falsy, otherwise continue
with the next page.  An exhausted page list while `has_more` holds means
the model lacks the response the code would fetch (`none`; excluded by
well-formedness hypotheses). -/
def fetchTotalA : List CostPage → ℚ → Option ℚ
  | [], _ => none
  | p :: rest, acc =>
    (sumOption (pageAmountsA p)).bind fun s =>
      if p.has_more then fetchTotalA rest (acc + s) else some (acc + s)

/-- `AnthropicPlugin._fetch_total_cost`: total in integer cents, rounded up. -/
def fetch_total_cost_anthropic (pages : List CostPage) : Option ℤ :=
  (fetchTotalA pages 0).map (fun q => ⌈q⌉)

/-- The `amount` object of an OpenAI result (`value` absent defaults to 0;
the float-to-`Decimal(str(...))` round trip is the exact decimal value). -/
structure CostAmountO where
  value : Option ℚ

/-- One entry of `bucket["results"]` for OpenAI (`amount` absent defaults
to `{}`). -/
structure CostResultO where
  amount : Option CostAmountO

/-- One entry of `data` for OpenAI. -/
structure CostBucketO where
  results : List CostResultO

/-- One page of the OpenAI costs API. -/
structure CostPageO where
  data : List CostBucketO
  has_more : Bool
  next_page : Option String

/-- `Decimal(str(result.get("amount", {}).get("value", 0))) * 100`:
major-unit value converted to cents. -/
def resultAmountO (r : CostResultO) : ℚ :=
  ((r.amount.map (fun a => a.value.getD 0)).getD 0) * 100

/-- All converted result amounts of one OpenAI page, in order. -/
def pageAmountsO (p : CostPageO) : List ℚ :=
  (p.data.map (fun b => b.results.map resultAmountO)).flatten

/-- OpenAI pagination loop: accumulate while `has_more`. -/
def fetchTotalO : List CostPageO → ℚ → Option ℚ
  | [], _ => none
  | p :: rest, acc =>
    if p.has_more then fetchTotalO rest (acc + (pageAmountsO p).sum)
    else some (acc + (pageAmountsO p).sum)

/-- `OpenAIPlugin._fetch_total_cost`: total in integer cents, rounded up. -/
def fetch_total_cost_openai (pages : List CostPageO) : Option ℤ :=
  (fetchTotalO pages 0).map (fun q => ⌈q⌉)

/-- Spec-side Anthropic total: the ceiling of the exact decimal sum of
every result amount across all pages, taken in one flat sum. -/
def specTotalAnthropic (pages : List CostPage) : Option ℤ :=
  (sumOption ((pages.map pageAmountsA).flatten)).map (fun q => ⌈q⌉)

/-- Spec-side OpenAI total: the ceiling of the exact flat sum of every
major-unit value times 100 across all pages. -/
def specTotalOpenai (pages : List CostPageO) : Option ℤ :=
  some ⌈((pages.map pageAmountsO).flatten).sum⌉

/-- A served page sequence is well formed when it is nonempty, every page
before the last announces more pages (`has_more` true), and the last does
not: exactly the sequences the pagination loop consumes in full. -/
def PagesWF : List Bool → Prop
  | [] => False
  | [b] => b = false
  | b :: rest => b = true ∧ PagesWF rest

/-! ## Plugin month window and expense records

From `src/expensify_os/models.py` and the two plugins. -/

/-- A calendar date (pydantic `datetime.date` values in the embedded
fragment are always explicit year/month/day triples). -/
structure Date where
  year : ℤ
  month : ℤ
  day : ℤ
deriving DecidableEq

/-- `ExpenseData`: pydantic validates field presence and types only; no
constraint is declared on `amount`. -/
structure ExpenseData where
  merchant : String
  amount : ℤ
  currency : String
  date : Date
  category : String
  comment : Option String
  receipt_path : String
deriving DecidableEq

/-- The (start, end) dates `AnthropicPlugin.fetch_expense` computes for a
billing month. -/
def anthropicWindow (year month : ℤ) : Date × Date :=
  (⟨year, month, 1⟩,
    if month = 12 then ⟨year + 1, 1, 1⟩ else ⟨year, month + 1, 1⟩)

/-- The (start, end) dates `OpenAIPlugin.fetch_expense` computes for a
billing month. -/
def openaiWindow (year month : ℤ) : Date × Date :=
  (⟨year, month, 1⟩,
    if month = 12 then ⟨year + 1, 1, 1⟩ else ⟨year, month + 1, 1⟩)

/-- Linear month index used to state the "first day of the following
month" property. -/
def monthIdx (d : Date) : ℤ :=
  12 * d.year + (d.month - 1)

/-- Zero-padded month formatting (`{month:02d}`). -/
def pad2 (n : ℤ) : String :=
  if 0 ≤ n ∧ n < 10 then "0" ++ toString n else toString n

/-- `AnthropicPlugin.fetch_expense`, with the served cost-report pages and
the receipt path made explicit.  Outer `none`: the aggregation raised;
`some none`: no charges; `some (some e)`: the assembled record. -/
def fetch_expense_anthropic (year month : ℤ) (pages : List CostPage)
    (category receiptPath : String) : Option (Option ExpenseData) :=
  let w := anthropicWindow year month
  match fetch_total_cost_anthropic pages with
  | none => none
  | some total =>
    if total = 0 then some none
    else
      some (some
        { merchant := "Anthropic"
          amount := total
          currency := "USD"
          date := w.1
          category := category
          comment := some ("Anthropic API usage for " ++ toString year ++ "-" ++ pad2 month)
          receipt_path := receiptPath })

/-- `OpenAIPlugin.fetch_expense`, analogous to the Anthropic one. -/
def fetch_expense_openai (year month : ℤ) (pages : List CostPageO)
    (category receiptPath : String) : Option (Option ExpenseData) :=
  let w := openaiWindow year month
  match fetch_total_cost_openai pages with
  | none => none
  | some total =>
    if total = 0 then some none
    else
      some (some
        { merchant := "OpenAI"
          amount := total
          currency := "USD"
          date := w.1
          category := category
          comment := some ("OpenAI API usage for " ++ toString year ++ "-" ++ pad2 month)
          receipt_path := receiptPath })

/-! ## Expensify client

From `src/expensify_os/expensify/client.py`.  An HTTP response is its
status, its parsed JSON body (`none` when the body is not JSON), and its
raw text. -/

/-- One entry of a returned `transactionList`. -/
structure TxnEntry where
  transactionID : Option String
deriving DecidableEq

/-- The fields of an Expensify JSON object the client reads (absent list
defaults to `[]` via `.get("transactionList", [])`). -/
structure ExpensifyPayload where
  responseCode : Option ℤ
  responseMessage : Option String
  transactionList : List TxnEntry
deriving DecidableEq

/-- A parsed JSON body: an object, or some non-object JSON value (the
`isinstance(result, dict)` distinction). -/
inductive JsonBody where
  | dict (p : ExpensifyPayload)
  | nondict
deriving DecidableEq

/-- An HTTP response from the Expensify endpoint. -/
structure HttpResponse where
  status : ℕ
  jsonBody : Option JsonBody
  text : String
deriving DecidableEq

/-- Failures the client raises: `httpx.HTTPStatusError` from
`raise_for_status`, `RuntimeError` with a message for application-level
errors, `FileNotFoundError` for a missing receipt file. -/
inductive RequestError where
  | httpStatus (code : ℕ)
  | apiError (message : String)
  | fileNotFound
deriving DecidableEq

/-- Abstraction of Python rendering the whole payload dict into the error
f-string when `responseMessage` is absent. -/
def payloadRender (p : ExpensifyPayload) : String :=
  "responseCode " ++ (match p.responseCode with | some c => toString c | none => "absent")

/-- `ExpensifyClient._request`, from `raise_for_status` on: transport
errors for status ≥ 400, then the JSON-decode fallback, then the
application-level `responseCode >= 400` check. -/
def handle_request_response (resp : HttpResponse) : Except RequestError JsonBody :=
  if 400 ≤ resp.status then .error (.httpStatus resp.status)
  else
    match resp.jsonBody with
    | none => .ok (.dict ⟨some 200, some resp.text, []⟩)
    | some (.dict p) =>
      if 400 ≤ p.responseCode.getD 0 then
        .error (.apiError ("Expensify API error: " ++ p.responseMessage.getD (payloadRender p)))
      else .ok (.dict p)
    | some .nondict => .ok .nondict

/-- Response handling of `ExpensifyClient.upload_receipt`, from
`raise_for_status` on: only the JSON-decode fallback, no application-level
check. -/
def handle_upload_response (resp : HttpResponse) : Except RequestError JsonBody :=
  if 400 ≤ resp.status then .error (.httpStatus resp.status)
  else
    match resp.jsonBody with
    | none => .ok (.dict ⟨some 200, some resp.text, []⟩)
    | some b => .ok b

/-- `ExpensifyClient.upload_receipt`: missing receipt file raises
`FileNotFoundError` before any request. -/
def upload_receipt (receiptExists : Bool) (resp : HttpResponse) :
    Except RequestError JsonBody :=
  if receiptExists then handle_upload_response resp else .error .fileNotFound

/-- Transaction id extraction in `ExpensifyClient.submit_expense`: first
entry of `transactionList`, if any. -/
def extract_transaction_id (create_result : JsonBody) : Option String :=
  match create_result with
  | .dict p =>
    match p.transactionList with
    | [] => none
    | e :: _ => e.transactionID
  | .nondict => none

/-- Python truthiness of the optional transaction id (`None` and `""` are
falsy). -/
def optStrTruthy : Option String → Bool
  | some s => decide (s ≠ "")
  | none => false

/-- The combined dict `submit_expense` returns: the three distinct keys. -/
structure SubmitOutcome where
  create : JsonBody
  receipt : Option JsonBody
  transaction_id : Option String
deriving DecidableEq

/-- `ExpensifyClient.submit_expense`, with the backend responses to the
create and (potential) upload calls made explicit.  The second component
counts how many upload calls were issued (meaningful even when the flow
raises). -/
def submit_expense (createResp uploadResp : HttpResponse) (receiptExists : Bool) :
    Except RequestError SubmitOutcome × ℕ :=
  match handle_request_response createResp with
  | .error e => (.error e, 0)
  | .ok createRes =>
    let tid := extract_transaction_id createRes
    if optStrTruthy tid && receiptExists then
      (match upload_receipt receiptExists uploadResp with
       | .error e => .error e
       | .ok r => .ok ⟨createRes, some r, tid⟩, 1)
    else (.ok ⟨createRes, none, tid⟩, 0)

/-! ## Orchestrator exit condition

From `_run_async` in `src/expensify_os/cli.py`: the selection guard and
the summary exit. -/

/-- Per-plugin result record status. -/
inductive PluginOutcome where
  | success (amount : ℤ) (currency : String)
  | skipped
  | error (msg : String)
deriving DecidableEq

/-- Whether a result record has status `error`. -/
def isError : PluginOutcome → Bool
  | .error _ => true
  | _ => false

/-- `_run_async` reduced to its exit condition: empty selection aborts with
exit 1 before any plugin runs; otherwise each selected plugin yields one
result record and the run exits 1 exactly when some record is an error.
Returns (exit code, result records). -/
def run_async (pluginNames : List String) (behavior : String → PluginOutcome) :
    ℕ × List (String × PluginOutcome) :=
  if pluginNames.isEmpty then (1, [])
  else
    let results := pluginNames.map (fun n => (n, behavior n))
    let errorCount := (results.filter (fun r => isError r.2)).length
    (if 0 < errorCount then 1 else 0, results)

/-! ## Theorems -/

/-- C8: for every (year, month) given to a plugin's fetch_expense, the
aggregation window is the half-open interval starting on the first day of
that month and ending (exclusively) on the first day of the following
month, with month 12 of year y producing end date (y+1)-01-01; both the
Anthropic and the OpenAI plugin compute the same window. -/
theorem month_window_correct (y m : ℤ) (h1 : 1 ≤ m) (h2 : m ≤ 12) :
    (anthropicWindow y m).1 = ⟨y, m, 1⟩ ∧
    (anthropicWindow y m).2.day = 1 ∧
    monthIdx (anthropicWindow y m).2 = monthIdx (anthropicWindow y m).1 + 1 ∧
    (m = 12 → (anthropicWindow y m).2 = ⟨y + 1, 1, 1⟩) ∧
    openaiWindow y m = anthropicWindow y m := by
  unfold anthropicWindow openaiWindow monthIdx
  by_cases hm : m = 12
  · subst hm
    refine ⟨rfl, by simp, by simp; ring, fun _ => by simp, rfl⟩
  · refine ⟨rfl, by simp [hm], by simp [hm]; ring, fun h => absurd h hm, rfl⟩

/-- Witness for C8 at the December rollover. -/
theorem month_window_correct_witness :
    (1 : ℤ) ≤ 12 ∧ (anthropicWindow 2025 12).2 = ⟨2026, 1, 1⟩ :=
  ⟨by decide, (month_window_correct 2025 12 (by decide) (by decide)).2.2.2.1 rfl⟩

/-- C9: a month whose aggregated total is 0 makes fetch_expense return
none for both plugins (no error, no record), and a returned record never
has amount 0. -/
theorem zero_total_yields_none (y m : ℤ) (pagesA : List CostPage)
    (pagesO : List CostPageO) (cat rp : String)
    (hA : fetch_total_cost_anthropic pagesA = some 0)
    (hO : fetch_total_cost_openai pagesO = some 0) :
    fetch_expense_anthropic y m pagesA cat rp = some none ∧
    fetch_expense_openai y m pagesO cat rp = some none ∧
    (∀ (pages : List CostPage) (e : ExpenseData),
      fetch_expense_anthropic y m pages cat rp = some (some e) → e.amount ≠ 0) ∧
    (∀ (pages : List CostPageO) (e : ExpenseData),
      fetch_expense_openai y m pages cat rp = some (some e) → e.amount ≠ 0) := by
  refine ⟨?_, ?_, ?_, ?_⟩
  · unfold fetch_expense_anthropic
    rw [hA]
    rfl
  · unfold fetch_expense_openai
    rw [hO]
    rfl
  · intro pages e h
    unfold fetch_expense_anthropic at h
    cases htc : fetch_total_cost_anthropic pages with
    | none => rw [htc] at h; exact absurd h (by simp)
    | some t =>
      rw [htc] at h
      by_cases ht : t = 0
      · simp [ht] at h
      · simp only [ht, if_false] at h
        obtain rfl : e = _ := (Option.some_injective _ (Option.some_injective _ h)).symm
        simpa using ht
  · intro pages e h
    unfold fetch_expense_openai at h
    cases htc : fetch_total_cost_openai pages with
    | none => rw [htc] at h; exact absurd h (by simp)
    | some t =>
      rw [htc] at h
      by_cases ht : t = 0
      · simp [ht] at h
      · simp only [ht, if_false] at h
        obtain rfl : e = _ := (Option.some_injective _ (Option.some_injective _ h)).symm
        simpa using ht

/-- Witness for C9: empty buckets on the only page. -/
theorem zero_total_yields_none_witness :
    fetch_total_cost_anthropic [⟨[], false, none⟩] = some 0 ∧
    fetch_expense_anthropic 2026 1 [⟨[], false, none⟩] "AI" "r.pdf" = some none ∧
    fetch_expense_openai 2026 1 [⟨[], false, none⟩] "AI" "r.pdf" = some none := by
  have h0 : fetchTotalA [⟨[], false, none⟩] 0 = some 0 := by
    simp [fetchTotalA, pageAmountsA, sumOption, seqOption]
  have hA : fetch_total_cost_anthropic [⟨[], false, none⟩] = some 0 := by
    unfold fetch_total_cost_anthropic
    rw [h0]
    simp
  have h1 : fetchTotalO [⟨[], false, none⟩] 0 = some 0 := by
    simp [fetchTotalO, pageAmountsO]
  have hO : fetch_total_cost_openai [⟨[], false, none⟩] = some 0 := by
    unfold fetch_total_cost_openai
    rw [h1]
    simp
  have h := zero_total_yields_none 2026 1 [⟨[], false, none⟩] [⟨[], false, none⟩]
      "AI" "r.pdf" hA hO
  exact ⟨hA, h.1, h.2.1⟩

/-- C10: an HTTP-success response whose body is not parseable JSON is
treated as a success dict with responseCode 200 and the raw body text as
responseMessage, on both the create and the receipt-upload path. -/
theorem unparseable_body_is_success (resp : HttpResponse)
    (hlo : 200 ≤ resp.status) (hhi : resp.status < 300)
    (hbody : resp.jsonBody = none) :
    handle_request_response resp = .ok (.dict ⟨some 200, some resp.text, []⟩) ∧
    handle_upload_response resp = .ok (.dict ⟨some 200, some resp.text, []⟩) := by
  have hst : ¬ 400 ≤ resp.status := by omega
  unfold handle_request_response handle_upload_response
  rw [hbody]
  simp [hst]

/-- Witness for C10. -/
theorem unparseable_body_is_success_witness :
    handle_request_response ⟨200, none, "OK"⟩ = .ok (.dict ⟨some 200, some "OK", []⟩) ∧
    handle_upload_response ⟨200, none, "OK"⟩ = .ok (.dict ⟨some 200, some "OK", []⟩) :=
  unparseable_body_is_success ⟨200, none, "OK"⟩ (by decide) (by decide) rfl

/-- C6 counterexample: with an empty plugin selection the orchestrator
exits with failure status 1 even though no result record has status
error (there are no result records at all). -/
theorem empty_selection_exits_failure :
    run_async [] (fun _ => PluginOutcome.skipped) = (1, []) := rfl

/-- C6 amended: when at least one plugin is selected, the exit status is a
failure exactly when some plugin's result record has status error; in
particular runs with only success/skipped records exit successfully. -/
theorem exit_failure_iff_error (names : List String)
    (bhv : String → PluginOutcome) (hne : names ≠ []) :
    ((run_async names bhv).1 ≠ 0 ↔
      ∃ r ∈ (run_async names bhv).2, isError r.2 = true) ∧
    (run_async names bhv).2.length = names.length := by
  have hemp : names.isEmpty = false := by
    cases names with
    | nil => exact absurd rfl hne
    | cons a l => rfl
  unfold run_async
  rw [hemp]
  simp only [Bool.false_eq_true, if_false]
  constructor
  · constructor
    · intro h
      by_cases hc : 0 < (List.filter (fun r => isError r.2) (names.map (fun n => (n, bhv n)))).length
      · have := List.length_pos_iff_exists_mem.mp hc
        obtain ⟨r, hr⟩ := this
        exact ⟨r, (List.mem_filter.mp hr).1, (List.mem_filter.mp hr).2⟩
      · simp [hc] at h
    · intro ⟨r, hr, herr⟩ contra
      have hmem : r ∈ List.filter (fun r => isError r.2) (names.map (fun n => (n, bhv n))) :=
        List.mem_filter.mpr ⟨hr, herr⟩
      have : 0 < (List.filter (fun r => isError r.2) (names.map (fun n => (n, bhv n)))).length :=
        List.length_pos_iff_exists_mem.mpr ⟨r, hmem⟩
      simp [this] at contra
  · simp

/-- Witness for the amended C6 theorem. -/
theorem exit_failure_iff_error_witness :
    ((run_async ["anthropic"] (fun _ => PluginOutcome.error "boom")).1 ≠ 0 ↔
      ∃ r ∈ (run_async ["anthropic"] (fun _ => PluginOutcome.error "boom")).2,
        isError r.2 = true) ∧
    (run_async ["anthropic"] (fun _ => PluginOutcome.error "boom")).2.length = 1 :=
  exit_failure_iff_error ["anthropic"] (fun _ => PluginOutcome.error "boom") (by simp)

/-- C4: submit_expense takes the transaction id from the transactionID
field of the first transactionList entry; an absent or empty list yields
no id and the receipt step is skipped with receipt result none; a
(truthy) id together with an existing receipt file yields exactly one
upload call and a combined result holding the create result, the upload
result and the id under three distinct keys. -/
theorem submit_expense_flow (createResp uploadResp : HttpResponse)
    (rex : Bool) (createRes : JsonBody)
    (hok : handle_request_response createResp = .ok createRes) :
    (∀ p e rest, createRes = .dict p → p.transactionList = e :: rest →
      extract_transaction_id createRes = e.transactionID) ∧
    (∀ p, createRes = .dict p → p.transactionList = [] →
      extract_transaction_id createRes = none) ∧
    (extract_transaction_id createRes = none →
      submit_expense createResp uploadResp rex = (.ok ⟨createRes, none, none⟩, 0)) ∧
    (∀ s r, extract_transaction_id createRes = some s → s ≠ "" → rex = true →
      handle_upload_response uploadResp = .ok r →
      submit_expense createResp uploadResp rex = (.ok ⟨createRes, some r, some s⟩, 1)) := by
  refine ⟨?_, ?_, ?_, ?_⟩
  · intro p e rest hdict hlist
    subst hdict
    simp [extract_transaction_id, hlist]
  · intro p hdict hlist
    subst hdict
    simp [extract_transaction_id, hlist]
  · intro hnone
    simp [submit_expense, hok, hnone, optStrTruthy]
  · intro s r hid hs hrex hup
    subst hrex
    have htr : optStrTruthy (some s) = true := by
      unfold optStrTruthy
      exact decide_eq_true hs
    simp [submit_expense, hok, hid, htr, upload_receipt, hup]

/-- Witness for C4: the full flow of the spec's example, transaction id
txn_456 extracted and one upload issued. -/
theorem submit_expense_flow_witness :
    submit_expense
      ⟨200, some (.dict ⟨some 200, none, [⟨some "txn_456"⟩]⟩), ""⟩
      ⟨200, some (.dict ⟨some 200, none, []⟩), ""⟩ true =
      (.ok ⟨.dict ⟨some 200, none, [⟨some "txn_456"⟩]⟩,
            some (.dict ⟨some 200, none, []⟩), some "txn_456"⟩, 1) := by
  have h := submit_expense_flow
    ⟨200, some (.dict ⟨some 200, none, [⟨some "txn_456"⟩]⟩), ""⟩
    ⟨200, some (.dict ⟨some 200, none, []⟩), ""⟩ true
    (.dict ⟨some 200, none, [⟨some "txn_456"⟩]⟩) rfl
  exact h.2.2.2 "txn_456" (.dict ⟨some 200, none, []⟩) rfl (by decide) rfl rfl

/-- C3 counterexample: on the receipt-upload call an HTTP-success response
carrying the application-level error envelope (responseCode 410,
responseMessage "Invalid credentials") is returned as an ordinary result,
not surfaced as a failure. -/
theorem upload_app_error_not_surfaced :
    handle_upload_response
        ⟨200, some (.dict ⟨some 410, some "Invalid credentials", []⟩), ""⟩ =
      .ok (.dict ⟨some 410, some "Invalid credentials", []⟩) := rfl

/-- C3 amended: on the create call an HTTP-success response whose payload
carries responseCode ≥ 400 raises a failure whose message contains the
backend's responseMessage, distinct from transport-level HTTP errors, and
no receipt-upload call is attempted; the receipt-upload call, by
contrast, returns such a payload to its caller without raising. -/
theorem create_app_error_surfaced (resp uploadResp : HttpResponse) (rex : Bool)
    (p : ExpensifyPayload) (m : String)
    (hlo : 200 ≤ resp.status) (hhi : resp.status < 300)
    (hbody : resp.jsonBody = some (.dict p))
    (hcode : 400 ≤ p.responseCode.getD 0)
    (hmsg : p.responseMessage = some m) :
    handle_request_response resp = .error (.apiError ("Expensify API error: " ++ m)) ∧
    submit_expense resp uploadResp rex =
      (.error (.apiError ("Expensify API error: " ++ m)), 0) ∧
    (∀ (u : HttpResponse) (q : ExpensifyPayload), u.status < 400 →
      u.jsonBody = some (.dict q) → handle_upload_response u = .ok (.dict q)) := by
  have hstat : ¬ 400 ≤ resp.status := by omega
  have hreq : handle_request_response resp =
      .error (.apiError ("Expensify API error: " ++ m)) := by
    unfold handle_request_response
    rw [hbody]
    simp [hstat, hcode, hmsg]
  refine ⟨hreq, ?_, ?_⟩
  · simp [submit_expense, hreq]
  · intro u q h1 h2
    have : ¬ 400 ≤ u.status := by omega
    unfold handle_upload_response
    rw [h2]
    simp [this]

/-- Witness for the amended C3 theorem, at the spec's concrete envelope. -/
theorem create_app_error_surfaced_witness :
    handle_request_response
        ⟨200, some (.dict ⟨some 410, some "Invalid credentials", []⟩), ""⟩ =
      .error (.apiError ("Expensify API error: " ++ "Invalid credentials")) ∧
    submit_expense
        ⟨200, some (.dict ⟨some 410, some "Invalid credentials", []⟩), ""⟩
        ⟨200, none, ""⟩ true =
      (.error (.apiError ("Expensify API error: " ++ "Invalid credentials")), 0) := by
  have h := create_app_error_surfaced
    ⟨200, some (.dict ⟨some 410, some "Invalid credentials", []⟩), ""⟩
    ⟨200, none, ""⟩ true ⟨some 410, some "Invalid credentials", []⟩
    "Invalid credentials" (by decide) (by decide) rfl (by decide) rfl
  exact ⟨h.1, h.2.1⟩

/-- Every rational delivered by a successful `seqOption` run occurs (as
`some`) in the input list. -/
theorem seqOption_mem :
    ∀ (l : List (Option ℚ)) (vs : List ℚ), seqOption l = some vs →
      ∀ v ∈ vs, some v ∈ l
  | [], vs, h => by
    simp only [seqOption, Option.some_inj] at h
    subst h
    intro v hv
    exact absurd hv (by simp)
  | none :: xs, vs, h => by
    simp [seqOption] at h
  | some v :: xs, vs, h => by
    simp only [seqOption] at h
    cases hxs : seqOption xs with
    | none => rw [hxs] at h; simp at h
    | some ws =>
      rw [hxs] at h
      simp only [Option.map_some', Option.some_inj] at h
      subst h
      intro u hu
      rcases List.mem_cons.mp hu with rfl | hu
      · exact List.mem_cons_self _ _
      · exact List.mem_cons_of_mem _ (seqOption_mem xs ws hxs u hu)

/-- A successful Anthropic pagination run over pages whose parsed amounts
are all nonnegative never decreases the accumulator. -/
theorem fetchTotalA_nonneg :
    ∀ (pages : List CostPage) (acc q : ℚ),
      (∀ p ∈ pages, ∀ x ∈ pageAmountsA p, ∀ a, x = some a → 0 ≤ a) →
      fetchTotalA pages acc = some q → acc ≤ q
  | [], acc, q, _, h => by simp [fetchTotalA] at h
  | p :: rest, acc, q, hnn, h => by
    simp only [fetchTotalA] at h
    cases hs : sumOption (pageAmountsA p) with
    | none => rw [hs] at h; simp at h
    | some s =>
      rw [hs, Option.some_bind] at h
      have hs0 : 0 ≤ s := by
        unfold sumOption at hs
        cases hseq : seqOption (pageAmountsA p) with
        | none => rw [hseq] at hs; simp at hs
        | some vs =>
          rw [hseq] at hs
          simp only [Option.map_some', Option.some_inj] at hs
          subst hs
          refine List.sum_nonneg ?_
          intro v hv
          exact hnn p (List.mem_cons_self _ _) (some v)
            (seqOption_mem _ _ hseq v hv) v rfl
      by_cases hm : p.has_more
      · rw [if_pos hm] at h
        have := fetchTotalA_nonneg rest (acc + s) q
          (fun pg hpg => hnn pg (List.mem_cons_of_mem _ hpg)) h
        linarith
      · rw [if_neg hm] at h
        simp only [Option.some_inj] at h
        linarith [h]

/-- A successful OpenAI pagination run over nonnegative converted amounts
never decreases the accumulator. -/
theorem fetchTotalO_nonneg :
    ∀ (pages : List CostPageO) (acc q : ℚ),
      (∀ p ∈ pages, ∀ x ∈ pageAmountsO p, 0 ≤ x) →
      fetchTotalO pages acc = some q → acc ≤ q
  | [], acc, q, _, h => by simp [fetchTotalO] at h
  | p :: rest, acc, q, hnn, h => by
    simp only [fetchTotalO] at h
    have hs0 : 0 ≤ (pageAmountsO p).sum :=
      List.sum_nonneg (fun v hv => hnn p (List.mem_cons_self _ _) v hv)
    by_cases hm : p.has_more
    · rw [if_pos hm] at h
      have := fetchTotalO_nonneg rest (acc + (pageAmountsO p).sum) q
        (fun pg hpg => hnn pg (List.mem_cons_of_mem _ hpg)) h
      linarith
    · rw [if_neg hm] at h
      simp only [Option.some_inj] at h
      linarith [h]

/-- Evaluate a ceiling on rationals from the two bracketing inequalities
(the `Rat` arithmetic operations are irreducible, so concrete ceilings
are established this way). -/
theorem ceil_eq_int (q : ℚ) (z : ℤ) (h1 : (z : ℚ) - 1 < q) (h2 : q ≤ (z : ℚ)) :
    ⌈q⌉ = z := by
  have hle : ⌈q⌉ ≤ z := Int.ceil_le.mpr h2
  have hgt : z - 1 < ⌈q⌉ := by
    have := lt_of_lt_of_le h1 (Int.le_ceil q)
    exact_mod_cast (by exact_mod_cast this : ((z : ℚ) - 1) < (⌈q⌉ : ℚ))
  omega

/-- C7 counterexample: nothing validates nonnegativity of amounts, so a
cost report carrying a negative amount string (a credit) flows into an
ExpenseData record with a negative amount: the Anthropic plugin on a page
with amount "-5.00" produces a record with amount -5 < 0. -/
theorem negative_amount_record_constructible :
    (fetch_expense_anthropic 2026 1 [⟨[⟨[⟨some "-5.00"⟩]⟩], false, none⟩]
        "AI" "r.pdf").map (Option.map ExpenseData.amount) = some (some (-5)) ∧
    ((-5 : ℤ) < 0) := by
  have hp : parseDecimal "-5.00" = some (-5) := by
    unfold parseDecimal
    norm_num +decide [parseNatDigits, List.dropWhile, List.takeWhile,
      show Char.toNat '5' = 53 from rfl]
  have hsum : sumOption (pageAmountsA ⟨[⟨[⟨some "-5.00"⟩]⟩], false, none⟩) = some (-5) := by
    simp [pageAmountsA, sumOption, seqOption, resultAmount, hp]
  have hft : fetchTotalA [⟨[⟨[⟨some "-5.00"⟩]⟩], false, none⟩] 0 = some (-5) := by
    simp [fetchTotalA, hsum]
  have htc : fetch_total_cost_anthropic [⟨[⟨[⟨some "-5.00"⟩]⟩], false, none⟩] =
      some (-5) := by
    unfold fetch_total_cost_anthropic
    rw [hft]
    simp only [Option.map_some']
    rw [ceil_eq_int (-5) (-5) (by norm_num) (by norm_num)]
  refine ⟨?_, by norm_num⟩
  unfold fetch_expense_anthropic
  rw [htc]
  norm_num

/-- C7 amended: amount is an integer in minor units, and every record the
plugins construct from vendor reports whose (converted) amounts are all
nonnegative satisfies amount ≥ 0; the model itself does not reject
negative amounts, which arise only from negative vendor-reported values. -/
theorem amount_nonneg_of_nonneg_amounts (y m : ℤ) (cat rp : String)
    (pagesA : List CostPage) (pagesO : List CostPageO)
    (hA : ∀ p ∈ pagesA, ∀ x ∈ pageAmountsA p, ∀ a, x = some a → 0 ≤ a)
    (hO : ∀ p ∈ pagesO, ∀ x ∈ pageAmountsO p, 0 ≤ x) :
    (∀ e, fetch_expense_anthropic y m pagesA cat rp = some (some e) → 0 ≤ e.amount) ∧
    (∀ e, fetch_expense_openai y m pagesO cat rp = some (some e) → 0 ≤ e.amount) := by
  constructor
  · intro e h
    unfold fetch_expense_anthropic at h
    cases htc : fetch_total_cost_anthropic pagesA with
    | none => rw [htc] at h; simp at h
    | some t =>
      rw [htc] at h
      have htn : 0 ≤ t := by
        unfold fetch_total_cost_anthropic at htc
        cases hq : fetchTotalA pagesA 0 with
        | none => rw [hq] at htc; simp at htc
        | some q =>
          rw [hq] at htc
          simp only [Option.map_some', Option.some_inj] at htc
          subst htc
          exact Int.ceil_nonneg (fetchTotalA_nonneg pagesA 0 q hA hq)
      by_cases ht : t = 0
      · simp [ht] at h
      · simp only [ht, if_false] at h
        obtain rfl : e = _ := (Option.some_injective _ (Option.some_injective _ h)).symm
        exact htn
  · intro e h
    unfold fetch_expense_openai at h
    cases htc : fetch_total_cost_openai pagesO with
    | none => rw [htc] at h; simp at h
    | some t =>
      rw [htc] at h
      have htn : 0 ≤ t := by
        unfold fetch_total_cost_openai at htc
        cases hq : fetchTotalO pagesO 0 with
        | none => rw [hq] at htc; simp at htc
        | some q =>
          rw [hq] at htc
          simp only [Option.map_some', Option.some_inj] at htc
          subst htc
          exact Int.ceil_nonneg (fetchTotalO_nonneg pagesO 0 q hO hq)
      by_cases ht : t = 0
      · simp [ht] at h
      · simp only [ht, if_false] at h
        obtain rfl : e = _ := (Option.some_injective _ (Option.some_injective _ h)).symm
        exact htn

/-- Witness for the amended C7 theorem on pages reporting 5.00. -/
theorem amount_nonneg_of_nonneg_amounts_witness :
    (fetch_expense_anthropic 2026 1 [⟨[⟨[⟨some "5.00"⟩]⟩], false, none⟩]
        "AI" "r.pdf").map (Option.map ExpenseData.amount) = some (some 5) ∧
    (∀ e, fetch_expense_anthropic 2026 1 [⟨[⟨[⟨some "5.00"⟩]⟩], false, none⟩]
        "AI" "r.pdf" = some (some e) → 0 ≤ e.amount) ∧
    (∀ e, fetch_expense_openai 2026 1 [⟨[⟨[⟨some ⟨some 5⟩⟩]⟩], false, none⟩]
        "AI" "r.pdf" = some (some e) → 0 ≤ e.amount) := by
  have hp : parseDecimal "5.00" = some 5 := by
    unfold parseDecimal
    norm_num +decide [parseNatDigits, List.dropWhile, List.takeWhile,
      show Char.toNat '5' = 53 from rfl]
  have hmain := amount_nonneg_of_nonneg_amounts 2026 1 "AI" "r.pdf"
      [⟨[⟨[⟨some "5.00"⟩]⟩], false, none⟩] [⟨[⟨[⟨some ⟨some 5⟩⟩]⟩], false, none⟩]
      (by
        intro p hpmem x hx a hxa
        simp only [List.mem_singleton] at hpmem
        subst hpmem
        simp [pageAmountsA, resultAmount, hp] at hx
        subst hx
        obtain rfl : (5 : ℚ) = a := Option.some_inj.mp (hp ▸ hxa)
        norm_num)
      (by
        intro p hpmem x hx
        simp only [List.mem_singleton] at hpmem
        subst hpmem
        simp [pageAmountsO, resultAmountO] at hx
        subst hx
        norm_num)
  refine ⟨?_, hmain.1, hmain.2⟩
  have hsum : sumOption (pageAmountsA ⟨[⟨[⟨some "5.00"⟩]⟩], false, none⟩) = some 5 := by
    simp [pageAmountsA, sumOption, seqOption, resultAmount, hp]
  have hft : fetchTotalA [⟨[⟨[⟨some "5.00"⟩]⟩], false, none⟩] 0 = some 5 := by
    simp [fetchTotalA, hsum]
  have htc : fetch_total_cost_anthropic [⟨[⟨[⟨some "5.00"⟩]⟩], false, none⟩] =
      some 5 := by
    unfold fetch_total_cost_anthropic
    rw [hft]
    simp only [Option.map_some']
    rw [ceil_eq_int 5 5 (by norm_num) (by norm_num)]
  unfold fetch_expense_anthropic
  rw [htc]
  norm_num

/-- Sequencing distributes over append. -/
theorem seqOption_append :
    ∀ (l1 l2 : List (Option ℚ)),
      seqOption (l1 ++ l2) =
        (seqOption l1).bind (fun a => (seqOption l2).map (fun b => a ++ b))
  | [], l2 => by
    cases h : seqOption l2 <;> simp [seqOption, h]
  | none :: xs, l2 => by
    simp [seqOption]
  | some v :: xs, l2 => by
    rw [List.cons_append]
    simp only [seqOption]
    rw [seqOption_append xs l2]
    cases hx : seqOption xs <;> cases h2 : seqOption l2 <;> simp

/-- Exact summation distributes over append. -/
theorem sumOption_append (l1 l2 : List (Option ℚ)) :
    sumOption (l1 ++ l2) =
      (sumOption l1).bind (fun a => (sumOption l2).map (fun b => a + b)) := by
  unfold sumOption
  rw [seqOption_append]
  cases h1 : seqOption l1 <;> cases h2 : seqOption l2 <;> simp

/-- The Anthropic pagination loop over a well-formed page sequence
computes the one flat exact sum of every amount across all pages, on top
of the accumulator. -/
theorem fetchTotalA_spec :
    ∀ (pages : List CostPage) (acc : ℚ), PagesWF (pages.map CostPage.has_more) →
      fetchTotalA pages acc =
        (sumOption ((pages.map pageAmountsA).flatten)).map (fun s => acc + s)
  | [], _, hwf => absurd hwf (by simp [PagesWF])
  | [p], acc, hwf => by
    have hm : p.has_more = false := by simpa [PagesWF] using hwf
    simp only [fetchTotalA, hm, List.map_cons, List.map_nil, List.flatten,
      List.append_nil, Bool.false_eq_true, if_false]
    cases hs : sumOption (pageAmountsA p) <;> simp
  | p :: q :: rest, acc, hwf => by
    have hm : p.has_more = true := by
      simpa [PagesWF] using hwf.1
    have hwf2 : PagesWF ((q :: rest).map CostPage.has_more) := hwf.2
    have hflat : ((p :: q :: rest).map pageAmountsA).flatten =
        pageAmountsA p ++ ((q :: rest).map pageAmountsA).flatten := by
      simp
    have hstep : fetchTotalA (p :: q :: rest) acc =
        (sumOption (pageAmountsA p)).bind fun s =>
          if p.has_more = true then fetchTotalA (q :: rest) (acc + s)
          else some (acc + s) := rfl
    rw [hstep, hm, hflat, sumOption_append]
    cases hs : sumOption (pageAmountsA p) with
    | none => simp
    | some s =>
      simp only [Option.some_bind, if_true]
      rw [fetchTotalA_spec (q :: rest) (acc + s) hwf2]
      cases hr : sumOption (((q :: rest).map pageAmountsA).flatten) <;>
        simp [add_assoc]

/-- The OpenAI pagination loop over a well-formed page sequence computes
the one flat sum of every converted amount across all pages, on top of
the accumulator. -/
theorem fetchTotalO_spec :
    ∀ (pages : List CostPageO) (acc : ℚ), PagesWF (pages.map CostPageO.has_more) →
      fetchTotalO pages acc =
        some (acc + ((pages.map pageAmountsO).flatten).sum)
  | [], _, hwf => absurd hwf (by simp [PagesWF])
  | [p], acc, hwf => by
    have hm : p.has_more = false := by simpa [PagesWF] using hwf
    simp [fetchTotalO, hm]
  | p :: q :: rest, acc, hwf => by
    have hm : p.has_more = true := by
      simpa [PagesWF] using hwf.1
    have hwf2 : PagesWF ((q :: rest).map CostPageO.has_more) := hwf.2
    have hstep : fetchTotalO (p :: q :: rest) acc =
        if p.has_more = true then fetchTotalO (q :: rest) (acc + (pageAmountsO p).sum)
        else some (acc + (pageAmountsO p).sum) := rfl
    rw [hstep, hm, if_pos rfl,
      fetchTotalO_spec (q :: rest) (acc + (pageAmountsO p).sum) hwf2]
    simp [add_assoc]

/-- C2: over a well-formed paged cost report (pagination followed while
has_more), each vendor's total equals the ceiling of the exact decimal
sum of every result amount across all pages, with the vendor-specific
unit conversion (Anthropic: minor-unit decimal strings summed directly;
OpenAI: major-unit values times 100) applied before summing. -/
theorem aggregator_refines_spec (pagesA : List CostPage) (pagesO : List CostPageO)
    (hA : PagesWF (pagesA.map CostPage.has_more))
    (hO : PagesWF (pagesO.map CostPageO.has_more)) :
    fetch_total_cost_anthropic pagesA = specTotalAnthropic pagesA ∧
    fetch_total_cost_openai pagesO = specTotalOpenai pagesO := by
  constructor
  · unfold fetch_total_cost_anthropic specTotalAnthropic
    rw [fetchTotalA_spec pagesA 0 hA]
    cases hs : sumOption ((pagesA.map pageAmountsA).flatten) <;> simp
  · unfold fetch_total_cost_openai specTotalOpenai
    rw [fetchTotalO_spec pagesO 0 hO]
    simp

/-- Witness for C2 at the spec's example: amounts "5000.50" and "2500.25"
across two pages total 7501 (ceiling of 7500.75), and an OpenAI value of
50 major units on one page totals 5000 cents. -/
theorem aggregator_refines_spec_witness :
    fetch_total_cost_anthropic
        [⟨[⟨[⟨some "5000.50"⟩]⟩], true, some "p2"⟩,
         ⟨[⟨[⟨some "2500.25"⟩]⟩], false, none⟩] = some 7501 ∧
    fetch_total_cost_openai [⟨[⟨[⟨some ⟨some 50⟩⟩]⟩], false, none⟩] = some 5000 := by
  have h1 : parseDecimal "5000.50" = some (5000 + 50 / 100) := by
    unfold parseDecimal
    norm_num +decide [parseNatDigits, List.dropWhile, List.takeWhile,
      show Char.toNat '5' = 53 from rfl]
  have h2 : parseDecimal "2500.25" = some (2500 + 25 / 100) := by
    unfold parseDecimal
    norm_num +decide [parseNatDigits, List.dropWhile, List.takeWhile,
      show Char.toNat '2' = 50 from rfl, show Char.toNat '5' = 53 from rfl]
  have hmain := aggregator_refines_spec
    [⟨[⟨[⟨some "5000.50"⟩]⟩], true, some "p2"⟩, ⟨[⟨[⟨some "2500.25"⟩]⟩], false, none⟩]
    [⟨[⟨[⟨some ⟨some 50⟩⟩]⟩], false, none⟩]
    (by simp [PagesWF]) (by simp [PagesWF])
  constructor
  · rw [hmain.1]
    unfold specTotalAnthropic
    have hsum : sumOption
        (([⟨[⟨[⟨some "5000.50"⟩]⟩], true, some "p2"⟩,
           ⟨[⟨[⟨some "2500.25"⟩]⟩], false, none⟩].map pageAmountsA).flatten) =
        some ((5000 + 50 / 100) + (2500 + 25 / 100)) := by
      simp [pageAmountsA, sumOption, seqOption, resultAmount, h1, h2]
      norm_num
    rw [hsum]
    simp only [Option.map_some']
    rw [ceil_eq_int _ 7501 (by norm_num) (by norm_num)]
  · rw [hmain.2]
    unfold specTotalOpenai
    have hsum : (([⟨[⟨[⟨some ⟨some 50⟩⟩]⟩], false, none⟩].map pageAmountsO).flatten).sum =
        (5000 : ℚ) := by
      simp [pageAmountsO, resultAmountO]
      norm_num
    rw [hsum]
    rw [ceil_eq_int _ 5000 (by norm_num) (by norm_num)]

/-- Helper: on a sorted timestamp list the implemented wait computation
agrees with the specification formula, the mutated deque is the
long-window filter, and the attempt appends exactly when the wait is
nonpositive. -/
theorem wait_time_spec_eq (rl : RateLimiter) (ts : List ℚ) (now : ℚ)
    (hs : ts.Sorted (· ≤ ·)) (h1 : 1 ≤ rl.short_limit) (h2 : 1 ≤ rl.long_limit) :
    (wait_time rl ts now).1 = waitTimeSpec rl ts now ∧
    (wait_time rl ts now).2 =
      ts.filter (fun t => decide (now - rl.long_window ≤ t)) ∧
    acquireAttempt rl ts now =
      (if waitTimeSpec rl ts now ≤ 0
       then some (ts.filter (fun t => decide (now - rl.long_window ≤ t)) ++ [now])
       else none) := by
  have hP : prune rl now ts = ts.filter (fun t => decide (now - rl.long_window ≤ t)) := by
    unfold prune
    exact sorted_dropWhile_lt_eq_filter (now - rl.long_window) ts hs
  set R := ts.filter (fun t => decide (now - rl.long_window ≤ t)) with hR
  have hRsorted : R.Sorted (· ≤ ·) := hs.filter _
  set S := R.filter (fun t => decide (now - rl.short_window ≤ t)) with hS
  have hSsorted : S.Sorted (· ≤ ·) := hRsorted.filter _
  have hfst : (wait_time rl ts now).1 = waitTimeSpec rl ts now := by
    unfold wait_time waitTimeSpec
    simp only [hP]
    rw [← hR, ← hS]
    by_cases hcs : rl.short_limit ≤ S.length
    · have hSne : S ≠ [] :=
        List.length_pos.mp (lt_of_lt_of_le (by omega) hcs)
      have hmm : listMin S ∈ S := listMin_mem S hSne
      have hmge : now - rl.short_window ≤ listMin S := by
        have := List.mem_filter.mp (hS ▸ hmm)
        exact of_decide_eq_true this.2
      have hfind : R.find? (fun t => decide (now - rl.short_window ≤ t)) =
          some (listMin S) := by
        rw [find?_eq_head?_filter, ← hS, sorted_head?_eq_listMin S hSsorted hSne]
      rw [if_pos hcs, if_pos hcs, hfind]
      simp only [Option.elim_some]
      have hmax0 : max 0 (listMin S + rl.short_window - now) =
          listMin S + rl.short_window - now :=
        max_eq_right (by linarith)
      rw [hmax0]
      by_cases hcl : rl.long_limit ≤ R.length
      · have hRne : R ≠ [] :=
          List.length_pos.mp (lt_of_lt_of_le (by omega) hcl)
        rw [if_pos hcl, if_pos hcl, sorted_head?_eq_listMin R hRsorted hRne]
        simp only [Option.elim_some]
      · have hnn : (0 : ℚ) ≤ listMin S + rl.short_window - now := by linarith
        rw [if_neg hcl, if_neg hcl, max_eq_left hnn]
    · rw [if_neg hcs, if_neg hcs]
      by_cases hcl : rl.long_limit ≤ R.length
      · have hRne : R ≠ [] :=
          List.length_pos.mp (lt_of_lt_of_le (by omega) hcl)
        rw [if_pos hcl, if_pos hcl, sorted_head?_eq_listMin R hRsorted hRne]
        simp only [Option.elim_some]
      · rw [if_neg hcl, if_neg hcl, max_self]
  have hsnd : (wait_time rl ts now).2 = R := by
    simp only [wait_time, hP]
  refine ⟨hfst, hsnd, ?_⟩
  simp only [acquireAttempt]
  rw [hfst, hsnd]

/-- C5: on a sorted timestamp list, one acquire attempt computes its wait
exactly as the specification describes it: after dropping timestamps
older than now - long_window, the short-window wait (oldest in-window
timestamp + short_window - now, when the in-window count reaches
short_limit) maxed with the long-window wait (oldest remaining +
long_window - now, when the remaining count reaches long_limit); a
timestamp is appended exactly when that wait is zero or less. -/
theorem wait_time_matches_spec (rl : RateLimiter) (ts : List ℚ) (now : ℚ)
    (hs : ts.Sorted (· ≤ ·)) (h1 : 1 ≤ rl.short_limit) (h2 : 1 ≤ rl.long_limit) :
    (wait_time rl ts now).1 = waitTimeSpec rl ts now ∧
    (wait_time rl ts now).2 =
      ts.filter (fun t => decide (now - rl.long_window ≤ t)) ∧
    acquireAttempt rl ts now =
      (if waitTimeSpec rl ts now ≤ 0
       then some (ts.filter (fun t => decide (now - rl.long_window ≤ t)) ++ [now])
       else none) :=
  wait_time_spec_eq rl ts now hs h1 h2

/-- Witness for C5 on the sorted list [0, 1] at now = 2 with the default
limiter configuration. -/
theorem wait_time_matches_spec_witness :
    (wait_time ⟨5, 10, 20, 60⟩ [0, 1] 2).1 = waitTimeSpec ⟨5, 10, 20, 60⟩ [0, 1] 2 ∧
    (wait_time ⟨5, 10, 20, 60⟩ [0, 1] 2).2 =
      [0, 1].filter (fun t => decide ((2 : ℚ) - 60 ≤ t)) ∧
    acquireAttempt ⟨5, 10, 20, 60⟩ [0, 1] 2 =
      (if waitTimeSpec ⟨5, 10, 20, 60⟩ [0, 1] 2 ≤ 0
       then some ([0, 1].filter (fun t => decide ((2 : ℚ) - 60 ≤ t)) ++ [2])
       else none) :=
  wait_time_matches_spec ⟨5, 10, 20, 60⟩ [0, 1] 2
    (by norm_num [List.sorted_cons]) (by norm_num) (by norm_num)

/-! ### Rate limiter invariant machinery (C1) -/

/-- Filtering by a higher cutoff after a lower one is filtering by the
higher cutoff alone. -/
theorem filter_filter_cutoffs (c c' : ℚ) (hcc : c ≤ c') (l : List ℚ) :
    (l.filter (fun t => decide (c ≤ t))).filter (fun t => decide (c' ≤ t)) =
      l.filter (fun t => decide (c' ≤ t)) := by
  rw [List.filter_filter]
  refine List.filter_congr ?_
  intro t ht
  by_cases h : c' ≤ t
  · have : c ≤ t := le_trans hcc h
    simp [h, this]
  · simp [h]

/-- `countP` of a pointwise disjunction of predicates disjoint on the
list is the sum of the two counts. -/
theorem countP_or_disjoint (p q : ℚ → Bool) :
    ∀ (l : List ℚ), (∀ t ∈ l, ¬(p t = true ∧ q t = true)) →
      l.countP (fun t => p t || q t) = l.countP p + l.countP q
  | [], _ => rfl
  | x :: xs, hdisj => by
    have hxs := countP_or_disjoint p q xs
      (fun t ht => hdisj t (List.mem_cons_of_mem _ ht))
    by_cases hp : p x
    · have hq : q x = false := by
        rcases Bool.eq_false_or_eq_true (q x) with h | h
        · exact absurd ⟨hp, h⟩ (hdisj x (List.mem_cons_self _ _))
        · exact h
      simp [List.countP_cons, hp, hq, hxs]
      omega
    · by_cases hq : q x
      · simp [List.countP_cons, Bool.eq_false_iff.mpr hp, hq, hxs]
        omega
      · simp [List.countP_cons, Bool.eq_false_iff.mpr hp,
          Bool.eq_false_iff.mpr hq, hxs]

/-- `countP` is monotone in the predicate, member-wise. -/
theorem countP_le_of_imp (p q : ℚ → Bool) :
    ∀ (l : List ℚ), (∀ t ∈ l, p t = true → q t = true) →
      l.countP p ≤ l.countP q
  | [], _ => le_refl _
  | x :: xs, himp => by
    have hxs := countP_le_of_imp p q xs
      (fun t ht => himp t (List.mem_cons_of_mem _ ht))
    by_cases hp : p x
    · have hq := himp x (List.mem_cons_self _ _) hp
      simp [List.countP_cons, hp, hq]
      omega
    · simp only [List.countP_cons, Bool.eq_false_iff.mpr hp]
      by_cases hq : q x <;> simp [hq] <;> omega

/-- The deque component of `wait_time` is the pruned list. -/
theorem wait_time_snd (rl : RateLimiter) (ts : List ℚ) (now : ℚ) :
    (wait_time rl ts now).2 = prune rl now ts := rfl

/-- A successful acquire attempt means the wait was nonpositive and the
new deque is the pruned one with `now` appended. -/
theorem acquireAttempt_some (rl : RateLimiter) (ts : List ℚ) (now : ℚ)
    (s' : List ℚ) (h : acquireAttempt rl ts now = some s') :
    (wait_time rl ts now).1 ≤ 0 ∧ s' = prune rl now ts ++ [now] := by
  simp only [acquireAttempt] at h
  by_cases hw : (wait_time rl ts now).1 ≤ 0
  · rw [if_pos hw] at h
    refine ⟨hw, ?_⟩
    rw [← wait_time_snd rl ts now]
    exact (Option.some_inj.mp h).symm
  · rw [if_neg hw] at h
    exact absurd h (by simp)

/-- Along any trace, the admitted times and the deque are sorted, and
pruning the deque at any time bounding the trace recovers the long-window
filter of the full admitted history (failed attempts only prune, and
pruning at nondecreasing cutoffs composes). -/
theorem trace_state_char (rl : RateLimiter) :
    ∀ {admitted state : List ℚ}, AdmissibleTrace rl admitted state →
      admitted.Sorted (· ≤ ·) ∧ state.Sorted (· ≤ ·) ∧
      ∀ now', (∀ t ∈ admitted, t ≤ now') →
        prune rl now' state =
          admitted.filter (fun t => decide (now' - rl.long_window ≤ t)) := by
  intro admitted state h
  induction h with
  | nil =>
    refine ⟨List.sorted_nil, List.sorted_nil, ?_⟩
    intro now' _
    simp [prune]
  | step hprev hmono hacq ih =>
    rename_i A s now s'
    obtain ⟨hAsorted, hssorted, hchar⟩ := ih
    obtain ⟨hw, hs'⟩ := acquireAttempt_some rl s now s' hacq
    have hPs : prune rl now s =
        A.filter (fun t => decide (now - rl.long_window ≤ t)) :=
      hchar now hmono
    have hfle : ∀ t ∈ A.filter (fun t => decide (now - rl.long_window ≤ t)), t ≤ now :=
      fun t ht => hmono t (List.mem_filter.mp ht).1
    have hfsorted :
        (A.filter (fun t => decide (now - rl.long_window ≤ t))).Sorted (· ≤ ·) :=
      hAsorted.filter _
    have happSorted :
        (A.filter (fun t => decide (now - rl.long_window ≤ t)) ++ [now]).Sorted (· ≤ ·) := by
      refine List.pairwise_append.mpr ⟨hfsorted, List.pairwise_singleton _ _, ?_⟩
      intro a ha b hb
      rw [List.mem_singleton] at hb
      subst hb
      exact hfle a ha
    have hA'sorted : (A ++ [now]).Sorted (· ≤ ·) := by
      refine List.pairwise_append.mpr ⟨hAsorted, List.pairwise_singleton _ _, ?_⟩
      intro a ha b hb
      rw [List.mem_singleton] at hb
      subst hb
      exact hmono a ha
    have hs'sorted : s'.Sorted (· ≤ ·) := by
      rw [hs', hPs]
      exact happSorted
    refine ⟨hA'sorted, hs'sorted, ?_⟩
    intro now' hb'
    have hnow : now ≤ now' := hb' now (by simp)
    rw [hs', hPs]
    unfold prune
    rw [sorted_dropWhile_lt_eq_filter _ _ happSorted, List.filter_append,
      filter_filter_cutoffs (now - rl.long_window) (now' - rl.long_window)
        (by linarith), List.filter_append]

/-- At a successful admission, whichever window is at its limit has its
oldest in-window timestamp exactly on the window boundary, so the
boundary time itself is an admitted time. -/
theorem admit_boundary (rl : RateLimiter) {A s : List ℚ} {now : ℚ} {s' : List ℚ}
    (h1 : 1 ≤ rl.short_limit) (h2 : 1 ≤ rl.long_limit)
    (hWW : rl.short_window ≤ rl.long_window)
    (hssorted : s.Sorted (· ≤ ·))
    (hstate : prune rl now s = A.filter (fun t => decide (now - rl.long_window ≤ t)))
    (hacq : acquireAttempt rl s now = some s') :
    (rl.short_limit ≤ (A.filter (fun t => decide (now - rl.short_window ≤ t))).length →
      (now - rl.short_window) ∈ A) ∧
    (rl.long_limit ≤ (A.filter (fun t => decide (now - rl.long_window ≤ t))).length →
      (now - rl.long_window) ∈ A) := by
  obtain ⟨hw, _⟩ := acquireAttempt_some rl s now s' hacq
  rw [(wait_time_spec_eq rl s now hssorted h1 h2).1] at hw
  have hrem : s.filter (fun t => decide (now - rl.long_window ≤ t)) =
      A.filter (fun t => decide (now - rl.long_window ≤ t)) := by
    rw [← sorted_dropWhile_lt_eq_filter (now - rl.long_window) s hssorted]
    have h' := hstate
    unfold prune at h'
    exact h'
  have hshort : (A.filter (fun t => decide (now - rl.long_window ≤ t))).filter
        (fun t => decide (now - rl.short_window ≤ t)) =
      A.filter (fun t => decide (now - rl.short_window ≤ t)) :=
    filter_filter_cutoffs _ _ (by linarith) A
  simp only [waitTimeSpec] at hw
  rw [hrem, hshort] at hw
  obtain ⟨hwS, hwL⟩ := max_le_iff.mp hw
  constructor
  · intro hcs
    rw [if_pos hcs] at hwS
    have hSne : A.filter (fun t => decide (now - rl.short_window ≤ t)) ≠ [] :=
      List.length_pos.mp (lt_of_lt_of_le (by omega) hcs)
    have hmm := listMin_mem _ hSne
    have hmem := List.mem_filter.mp hmm
    have hge : now - rl.short_window ≤
        listMin (A.filter (fun t => decide (now - rl.short_window ≤ t))) :=
      of_decide_eq_true hmem.2
    have heq : listMin (A.filter (fun t => decide (now - rl.short_window ≤ t))) =
        now - rl.short_window :=
      le_antisymm (by linarith) hge
    rw [← heq]
    exact hmem.1
  · intro hcl
    rw [if_pos hcl] at hwL
    have hRne : A.filter (fun t => decide (now - rl.long_window ≤ t)) ≠ [] :=
      List.length_pos.mp (lt_of_lt_of_le (by omega) hcl)
    have hmm := listMin_mem _ hRne
    have hmem := List.mem_filter.mp hmm
    have hge : now - rl.long_window ≤
        listMin (A.filter (fun t => decide (now - rl.long_window ≤ t))) :=
      of_decide_eq_true hmem.2
    have heq : listMin (A.filter (fun t => decide (now - rl.long_window ≤ t))) =
        now - rl.long_window :=
      le_antisymm (by linarith) hge
    rw [← heq]
    exact hmem.1

/-- Window-counting step: if every trailing window of width `W` over the
strictly earlier admissions `A` holds at most `L` of them, and the
admission condition held at `now` (a full closed window forces its oldest
member onto the boundary `now - W`), then every trailing window over
`A ++ [now]` still holds at most `L`. -/
theorem window_step (A : List ℚ) (now W : ℚ) (L : ℕ) (hL : 1 ≤ L)
    (hlt : ∀ t ∈ A, t < now)
    (IH : ∀ T, cntW A T W ≤ L)
    (hcond : L ≤ (A.filter (fun t => decide (now - W ≤ t))).length → (now - W) ∈ A) :
    ∀ T, cntW (A ++ [now]) T W ≤ L := by
  intro T
  unfold cntW
  rw [List.filter_append, List.length_append]
  by_cases hin : T - W < now ∧ now ≤ T
  case neg =>
    have hsing : List.filter (fun t => decide (T - W < t) && decide (t ≤ T)) [now] = [] := by
      simp only [List.filter_cons, List.filter_nil]
      rw [if_neg]
      intro hc
      rw [Bool.and_eq_true, decide_eq_true_eq, decide_eq_true_eq] at hc
      exact hin hc
    rw [hsing]
    simpa [cntW] using IH T
  case pos =>
    obtain ⟨hTn, hnT⟩ := hin
    have hsing : List.filter (fun t => decide (T - W < t) && decide (t ≤ T)) [now] = [now] := by
      simp only [List.filter_cons, List.filter_nil]
      rw [if_pos]
      rw [Bool.and_eq_true, decide_eq_true_eq, decide_eq_true_eq]
      exact ⟨hTn, hnT⟩
    rw [hsing]
    simp only [List.length_singleton]
    set S := A.filter (fun t => decide (now - W < t)) with hSdef
    have hwin_sub :
        (A.filter (fun t => decide (T - W < t) && decide (t ≤ T))).length ≤ S.length := by
      have hsub : List.Sublist (A.filter (fun t => decide (T - W < t) && decide (t ≤ T))) S := by
        refine List.monotone_filter_right A ?_
        intro t ht
        rw [Bool.and_eq_true, decide_eq_true_eq, decide_eq_true_eq] at ht
        rw [decide_eq_true_eq]
        have : now - W ≤ T - W := by linarith
        linarith [ht.1]
      exact hsub.length_le
    have hSbound : S.length + 1 ≤ L := by
      by_contra hcon
      push_neg at hcon
      have hLS : L ≤ S.length := by omega
      have hSF : List.Sublist S (A.filter (fun t => decide (now - W ≤ t))) := by
        refine List.monotone_filter_right A ?_
        intro t ht
        rw [decide_eq_true_eq] at ht
        rw [decide_eq_true_eq]
        linarith
      have hb : (now - W) ∈ A := hcond (le_trans hLS hSF.length_le)
      have hSne : S ≠ [] := List.length_pos.mp (lt_of_lt_of_le (by omega) hLS)
      have hT'S : listMax S ∈ S := listMax_mem S hSne
      have hT'A : listMax S ∈ A := (List.mem_filter.mp hT'S).1
      have hT'gt : now - W < listMax S := of_decide_eq_true (List.mem_filter.mp hT'S).2
      have hT'lt : listMax S < now := hlt _ hT'A
      have hcount : S.length + 1 ≤ cntW A (listMax S) W := by
        have hdisj : ∀ t ∈ A, ¬((decide (now - W < t)) = true ∧
            (decide (t = now - W)) = true) := by
          intro t _ hc
          obtain ⟨hpt, hqt⟩ := hc
          rw [decide_eq_true_eq] at hpt hqt
          rw [hqt] at hpt
          exact lt_irrefl _ hpt
        have hor : A.countP (fun t => decide (now - W < t) || decide (t = now - W)) =
            A.countP (fun t => decide (now - W < t)) +
              A.countP (fun t => decide (t = now - W)) :=
          countP_or_disjoint (fun t => decide (now - W < t))
            (fun t => decide (t = now - W)) A hdisj
        have himp : ∀ t ∈ A,
            ((decide (now - W < t)) || (decide (t = now - W))) = true →
            ((decide (listMax S - W < t)) && (decide (t ≤ listMax S))) = true := by
          intro t htA hpq
          rw [Bool.or_eq_true, decide_eq_true_eq, decide_eq_true_eq] at hpq
          rw [Bool.and_eq_true, decide_eq_true_eq, decide_eq_true_eq]
          rcases hpq with hgt | heq
          · have htS : t ∈ S := List.mem_filter.mpr
              ⟨htA, by rw [decide_eq_true_eq]; exact hgt⟩
            have hle : t ≤ listMax S := le_listMax S t htS
            exact ⟨by linarith, hle⟩
          · constructor
            · rw [heq]; linarith
            · rw [heq]; linarith
        have hmono := countP_le_of_imp _ _ A himp
        have hpos : 1 ≤ A.countP (fun t => decide (t = now - W)) := by
          have : 0 < A.countP (fun t => decide (t = now - W)) :=
            List.countP_pos_iff.mpr ⟨now - W, hb, by rw [decide_eq_true_eq]⟩
          omega
        have hSc : A.countP (fun t => decide (now - W < t)) = S.length := by
          rw [hSdef]
          exact List.countP_eq_length_filter _ _
        have hef : A.countP (fun t => decide (listMax S - W < t) && decide (t ≤ listMax S)) =
            (A.filter (fun t => decide (listMax S - W < t) && decide (t ≤ listMax S))).length :=
          List.countP_eq_length_filter _ _
        unfold cntW
        omega
      have := IH (listMax S)
      omega
    omega

/-- Main invariant: along any admissible trace with strictly increasing
admission times, every trailing half-open window respects its limit. -/
theorem trace_window_invariant (rl : RateLimiter)
    (hWW : rl.short_window ≤ rl.long_window)
    (h1 : 1 ≤ rl.short_limit) (h2 : 1 ≤ rl.long_limit) :
    ∀ {admitted state : List ℚ}, AdmissibleTrace rl admitted state →
      admitted.Pairwise (· < ·) →
      ∀ T, cntW admitted T rl.short_window ≤ rl.short_limit ∧
           cntW admitted T rl.long_window ≤ rl.long_limit := by
  intro admitted state h
  induction h with
  | nil =>
    intro _ T
    constructor <;> simp [cntW]
  | step hprev hmono hacq ih =>
    rename_i A s now s'
    intro hstrict T
    have hstrictA : A.Pairwise (· < ·) :=
      hstrict.sublist (List.sublist_append_left _ _)
    have hlt : ∀ t ∈ A, t < now := by
      have hcross := (List.pairwise_append.mp hstrict).2.2
      intro t ht
      exact hcross t ht now (by simp)
    obtain ⟨hAsorted, hssorted, hchar⟩ := trace_state_char rl hprev
    have hstate := hchar now hmono
    have hbound := admit_boundary rl h1 h2 hWW hssorted hstate hacq
    constructor
    · exact window_step A now rl.short_window rl.short_limit h1 hlt
        (fun Tp => (ih hstrictA Tp).1) hbound.1 T
    · exact window_step A now rl.long_window rl.long_limit h2 hlt
        (fun Tp => (ih hstrictA Tp).2) hbound.2 T

/-- After a full long window of silence the computed wait is zero:
acquire only delays, it never rejects. -/
theorem wait_nonpos_after_long_window (rl : RateLimiter)
    (h1 : 1 ≤ rl.short_limit) (h2 : 1 ≤ rl.long_limit)
    (ts : List ℚ) (now : ℚ) (hb : ∀ t ∈ ts, t ≤ now) :
    (wait_time rl ts (now + rl.long_window + 1)).1 ≤ 0 := by
  have hpruned : prune rl (now + rl.long_window + 1) ts = [] := by
    unfold prune
    rw [List.dropWhile_eq_nil_iff]
    intro x hx
    rw [decide_eq_true_eq]
    have := hb x hx
    linarith
  simp only [wait_time, hpruned, List.filter_nil, List.length_nil,
    List.find?_nil, List.head?_nil]
  rw [if_neg (by omega), if_neg (by omega)]

/-- C1 amended: for every admissible sequence of completed acquire calls
with strictly increasing admission times (and short window within the
long one, positive limits), at every instant the admitted timestamps in
the trailing half-open short window number at most short_limit and those
in the trailing long window number at most long_limit; and acquire never
rejects: one long window plus one second after the latest timestamp the
computed wait is nonpositive, so admission is only delayed. -/
theorem rate_limiter_sliding_window_invariant (rl : RateLimiter)
    (admitted state : List ℚ)
    (hWW : rl.short_window ≤ rl.long_window)
    (h1 : 1 ≤ rl.short_limit) (h2 : 1 ≤ rl.long_limit)
    (htrace : AdmissibleTrace rl admitted state)
    (hstrict : admitted.Pairwise (· < ·)) :
    (∀ T, cntW admitted T rl.short_window ≤ rl.short_limit ∧
          cntW admitted T rl.long_window ≤ rl.long_limit) ∧
    (∀ (ts : List ℚ) (now : ℚ), (∀ t ∈ ts, t ≤ now) →
      (wait_time rl ts (now + rl.long_window + 1)).1 ≤ 0) :=
  ⟨trace_window_invariant rl hWW h1 h2 htrace hstrict,
   fun ts now hb => wait_nonpos_after_long_window rl h1 h2 ts now hb⟩

/-- C1 counterexample: with short_limit 2 over a 10-second window (long
window 60/limit 20), the trace admitted at clock values 0, 0, 10, 10, 10
is a legal sequence of completed acquire calls — each step's computed
wait is ≤ 0, the boundary timestamps at 0 keeping the oldest in-window
entry exactly on the window edge — yet at instant 10 the trailing
10-second window contains 3 > 2 admitted calls (under the closed-window
reading the first two violate it as well). -/
theorem window_limit_violated_at_boundary :
    AdmissibleTrace ⟨2, 10, 20, 60⟩ [0, 0, 10, 10, 10] [0, 0, 10, 10, 10] ∧
    2 < cntW [0, 0, 10, 10, 10] 10 10 := by
  constructor
  · have a1 : acquireAttempt ⟨2, 10, 20, 60⟩ [] 0 = some [0] := by
      norm_num [acquireAttempt, wait_time, prune]
    have a2 : acquireAttempt ⟨2, 10, 20, 60⟩ [0] 0 = some [0, 0] := by
      norm_num [acquireAttempt, wait_time, prune, List.dropWhile, List.filter,
        List.find?]
    have a3 : acquireAttempt ⟨2, 10, 20, 60⟩ [0, 0] 10 = some [0, 0, 10] := by
      norm_num [acquireAttempt, wait_time, prune, List.dropWhile, List.filter,
        List.find?]
    have a4 : acquireAttempt ⟨2, 10, 20, 60⟩ [0, 0, 10] 10 = some [0, 0, 10, 10] := by
      norm_num [acquireAttempt, wait_time, prune, List.dropWhile, List.filter,
        List.find?]
    have a5 : acquireAttempt ⟨2, 10, 20, 60⟩ [0, 0, 10, 10] 10 =
        some [0, 0, 10, 10, 10] := by
      norm_num [acquireAttempt, wait_time, prune, List.dropWhile, List.filter,
        List.find?]
    have t1 : AdmissibleTrace ⟨2, 10, 20, 60⟩ [0] [0] :=
      AdmissibleTrace.step AdmissibleTrace.nil (by simp) a1
    have t2 : AdmissibleTrace ⟨2, 10, 20, 60⟩ [0, 0] [0, 0] :=
      AdmissibleTrace.step t1 (by norm_num) a2
    have t3 : AdmissibleTrace ⟨2, 10, 20, 60⟩ [0, 0, 10] [0, 0, 10] :=
      AdmissibleTrace.step t2 (by norm_num) a3
    have t4 : AdmissibleTrace ⟨2, 10, 20, 60⟩ [0, 0, 10, 10] [0, 0, 10, 10] :=
      AdmissibleTrace.step t3 (by norm_num) a4
    exact AdmissibleTrace.step t4 (by norm_num) a5
  · norm_num [cntW, List.filter]

/-- Witness for the amended C1 theorem on the strictly increasing trace
0, 1, 2 with the default configuration. -/
theorem rate_limiter_sliding_window_invariant_witness :
    cntW [0, 1, 2] 2 10 ≤ 5 ∧ cntW [0, 1, 2] 2 60 ≤ 20 ∧
    (wait_time ⟨5, 10, 20, 60⟩ [0, 1, 2] (2 + 60 + 1)).1 ≤ 0 := by
  have a1 : acquireAttempt ⟨5, 10, 20, 60⟩ [] 0 = some [0] := by
    norm_num [acquireAttempt, wait_time, prune]
  have a2 : acquireAttempt ⟨5, 10, 20, 60⟩ [0] 1 = some [0, 1] := by
    norm_num [acquireAttempt, wait_time, prune, List.dropWhile, List.filter,
      List.find?]
  have a3 : acquireAttempt ⟨5, 10, 20, 60⟩ [0, 1] 2 = some [0, 1, 2] := by
    norm_num [acquireAttempt, wait_time, prune, List.dropWhile, List.filter,
      List.find?]
  have t1 : AdmissibleTrace ⟨5, 10, 20, 60⟩ [0] [0] :=
    AdmissibleTrace.step AdmissibleTrace.nil (by simp) a1
  have t2 : AdmissibleTrace ⟨5, 10, 20, 60⟩ [0, 1] [0, 1] :=
    AdmissibleTrace.step t1 (by norm_num) a2
  have t3 : AdmissibleTrace ⟨5, 10, 20, 60⟩ [0, 1, 2] [0, 1, 2] :=
    AdmissibleTrace.step t2 (by norm_num) a3
  have h := rate_limiter_sliding_window_invariant ⟨5, 10, 20, 60⟩ [0, 1, 2] [0, 1, 2]
    (by norm_num) (by norm_num) (by norm_num) t3
    (by norm_num [List.pairwise_cons])
  exact ⟨(h.1 2).1, (h.1 2).2, h.2 [0, 1, 2] 2 (by norm_num)⟩

end ExpensifyOS
